import Mathlib

/-!
Verification of the polydoc-lib bundle builder and language-folder
initializer.  The definitions below are a shallow embedding of the
TypeScript sources: `generateBundleLogic` (bundle construction from a
storage listing plus the single snapshot write), `createLanguageFolders`
(per-language placeholder backfill), and the storage-event trigger that
invokes the latter.  Object storage is modelled as an ordered list of
(path, content) pairs; listing returns the names carrying a given path
as a plain character-list left factor, and writing overwrites in place or
appends.  The regex `^videos\/([^/]+)\/([^/]+)\/([^/]+)\/([^/]+)\/[^/]+\.(mp4|vtt)$`
is modelled structurally: split the name on the slash character, require
six parts rooted at "videos" with every segment non-empty, and require the
final segment to end in ".mp4" or ".vtt" with a non-empty stem.
-/

/-- Splits a character list at every slash character, mirroring how the
source regex decomposes an object name into path segments. -/
def splitSlash : List Char → List (List Char)
  | [] => [[]]
  | c :: cs =>
    match splitSlash cs with
    | [] => [[]]
    | p :: ps => if c = '/' then [] :: p :: ps else (c :: p) :: ps

/-- Rejoins segments with slash separators; inverse of `splitSlash`. -/
def joinSlash : List (List Char) → List Char
  | [] => []
  | [p] => p
  | p :: q :: ps => p ++ '/' :: joinSlash (q :: ps)

/-- Removes whitespace characters from both ends, modelling the
JavaScript `String.prototype.trim` used on `videoName`. -/
def trimChars (cs : List Char) : List Char :=
  ((cs.dropWhile Char.isWhitespace).reverse.dropWhile Char.isWhitespace).reverse

/-- String-level wrapper for `trimChars`. -/
def strTrim (s : String) : String := String.mk (trimChars s.data)

/-- Per-language asset pair of a bundle entry: the `videoPath` and
`subtitlePath` fields, each defaulting to the empty string. -/
structure LangEntry where
  videoPath : String
  subtitlePath : String
deriving DecidableEq

/-- Insertion-ordered language map, the model of the inner JavaScript
`Map` from language code to asset pair. -/
abbrev LangMap := List (String × LangEntry)

/-- Insertion-ordered video map, the model of the outer JavaScript
`Map` from video id to language map. -/
abbrev VideoMap := List (String × LangMap)

/-- One element of the bundle `videos` array. -/
structure VideoEntry where
  id : String
  title : String
  languages : LangMap
deriving DecidableEq

/-- The serialized snapshot value built by the bundle builder. -/
structure Bundle where
  version : String
  clinic : String
  department : String
  videos : List VideoEntry
deriving DecidableEq

/-- Successful decomposition of an object name by the asset path grammar. -/
structure ParsedPath where
  fileClinic : String
  fileDept : String
  videoId : String
  lang : String
  ext : String
deriving DecidableEq

/-- Classifies the final path segment: `mp4` or `vtt` with a non-empty
stem before the dot, exactly as the tail of the source regex demands. -/
def fileExt (f : List Char) : Option String :=
  if (".mp4".data) <:+ f ∧ 5 ≤ f.length then some "mp4"
  else if (".vtt".data) <:+ f ∧ 5 ≤ f.length then some "vtt"
  else none

/-- Applies the asset path grammar to an object name: six slash-separated
parts rooted at "videos", all segments non-empty, and a recognised
extension on the file segment. -/
def parsePath (filePath : String) : Option ParsedPath :=
  match splitSlash filePath.data with
  | [root, c, d, v, l, f] =>
    if root = "videos".data ∧ c ≠ [] ∧ d ≠ [] ∧ v ≠ [] ∧ l ≠ [] then
      match fileExt f with
      | some ext => some ⟨String.mk c, String.mk d, String.mk v, String.mk l, ext⟩
      | none => none
    else none
  | _ => none

/-- Grammar match plus the defensive clinic/department equality check of
the builder loop; yields the (videoId, lang, ext) triple on success. -/
def parseFor (clinic department filePath : String) : Option (String × String × String) :=
  match parsePath filePath with
  | some p =>
    if p.fileClinic = clinic ∧ p.fileDept = department then
      some (p.videoId, p.lang, p.ext)
    else none
  | none => none

/-- First-match association-list lookup, the model of `Map.get`. -/
def lookupA {α : Type} : List (String × α) → String → Option α
  | [], _ => none
  | (k, v) :: rest, key => if k = key then some v else lookupA rest key

/-- Updates the first entry with the given key in place, or appends a new
entry built from the default; models the `has`/`set`/`get`/mutate
sequence performed on the JavaScript insertion-ordered `Map`. -/
def updateA {α : Type} : List (String × α) → String → α → (α → α) → List (String × α)
  | [], key, dflt, f => [(key, f dflt)]
  | (k, v) :: rest, key, dflt, f =>
    if k = key then (k, f v) :: rest else (k, v) :: updateA rest key dflt f

/-- Writes one file path into the language entry: `mp4` sets `videoPath`,
anything else (only `vtt` arises) sets `subtitlePath`. -/
def applyExt (ext filePath : String) (e : LangEntry) : LangEntry :=
  if ext = "mp4" then { e with videoPath := filePath }
  else { e with subtitlePath := filePath }

/-- One iteration of the builder loop over the listing: skip names the
grammar or the namespace check rejects, otherwise update the nested maps. -/
def processFile (clinic department : String) (m : VideoMap) (filePath : String) : VideoMap :=
  match parseFor clinic department filePath with
  | none => m
  | some (vid, lang, ext) =>
    updateA m vid []
      (fun lm => updateA lm lang ⟨"", ""⟩ (applyExt ext filePath))

/-- The nested map state after the whole listing scan. -/
def buildVideoMap (clinic department : String) (files : List String) : VideoMap :=
  files.foldl (processFile clinic department) []

/-- The bundle value assembled from a listing, mirroring the map-to-array
conversion and the final record literal of `generateBundleLogic`. -/
def bundleOf (clinic department : String) (files : List String) : Bundle :=
  { version := "1.0", clinic := clinic, department := department,
    videos := (buildVideoMap clinic department files).map
      (fun p => { id := p.1, title := p.1, languages := p.2 }) }

/-- Lowercase hexadecimal digit for control-character escapes. -/
def hexDigit (n : Nat) : Char :=
  if n < 10 then Char.ofNat (48 + n) else Char.ofNat (87 + n)

/-- JSON string-character escaping as performed by `JSON.stringify`. -/
def escapeChar (c : Char) : List Char :=
  if c = '"' then ['\\', '"']
  else if c = '\\' then ['\\', '\\']
  else if c = Char.ofNat 8 then ['\\', 'b']
  else if c = Char.ofNat 9 then ['\\', 't']
  else if c = Char.ofNat 10 then ['\\', 'n']
  else if c = Char.ofNat 12 then ['\\', 'f']
  else if c = Char.ofNat 13 then ['\\', 'r']
  else if c.toNat < 32 then
    ['\\', 'u', '0', '0', hexDigit (c.toNat / 16), hexDigit (c.toNat % 16)]
  else [c]

/-- A JSON string literal with escapes. -/
def jsonString (s : String) : String :=
  String.mk ('"' :: (s.data.map escapeChar).flatten ++ ['"'])

/-- Separator between pretty-printed JSON siblings. -/
def commaNl : String := ",\n"

/-- One language key and its asset pair, indented as `JSON.stringify`
with a two-space indent renders depth four. -/
def langEntryJson (lang : String) (e : LangEntry) : String :=
  "        " ++ jsonString lang ++ ": \x7b\n" ++
  "          \"videoPath\": " ++ jsonString e.videoPath ++ commaNl ++
  "          \"subtitlePath\": " ++ jsonString e.subtitlePath ++ "\n" ++
  "        \x7d"

/-- The languages object of one video entry. -/
def languagesJson (lm : LangMap) : String :=
  if lm = [] then "\x7b\x7d"
  else "\x7b\n" ++ String.intercalate commaNl (lm.map (fun p => langEntryJson p.1 p.2)) ++
    "\n      \x7d"

/-- One element of the videos array. -/
def videoJson (v : VideoEntry) : String :=
  "    \x7b\n" ++
  "      \"id\": " ++ jsonString v.id ++ commaNl ++
  "      \"title\": " ++ jsonString v.title ++ commaNl ++
  "      \"languages\": " ++ languagesJson v.languages ++ "\n" ++
  "    \x7d"

/-- The videos array. -/
def videosJson (vs : List VideoEntry) : String :=
  if vs = [] then "[]"
  else "[\n" ++ String.intercalate commaNl (vs.map videoJson) ++ "\n  ]"

/-- Serialization of the bundle with the stable key order `version`,
`clinic`, `department`, `videos`, modelling `JSON.stringify(bundle, null, 2)`. -/
def bundleToJson (b : Bundle) : String :=
  "\x7b\n  \"version\": " ++ jsonString b.version ++
  commaNl ++ "  \"clinic\": " ++ jsonString b.clinic ++
  commaNl ++ "  \"department\": " ++ jsonString b.department ++
  commaNl ++ "  \"videos\": " ++ videosJson b.videos ++ "\n\x7d"

/-- Flat object storage: an ordered list of (object name, content) pairs. -/
abbrev Storage := List (String × String)

/-- Names of the stored objects that carry `p` as a left factor, in
storage order; models `bucket.getFiles` filtered by a name before the
first differing character. -/
def listUnder (st : Storage) (p : String) : List String :=
  (st.filter (fun e => decide (p.data <+: e.1.data))).map (fun e => e.1)

/-- Overwrite-or-append write, the model of `bucket.file(path).save`. -/
def writeObject : Storage → String → String → Storage
  | [], p, c => [(p, c)]
  | e :: rest, p, c =>
    if e.1 = p then (p, c) :: rest else e :: writeObject rest p c

/-- Content stored at a name, if any. -/
def getObject (st : Storage) (path : String) : Option String := lookupA st path

/-- The listing namespace of the builder: `videos/<clinic>/<department>/`. -/
def videosDir (clinic department : String) : String :=
  "videos/" ++ clinic ++ "/" ++ department ++ "/"

/-- The snapshot location: `bundles/<clinic>/<department>/bundle.json`. -/
def bundleFileOf (clinic department : String) : String :=
  "bundles/" ++ clinic ++ "/" ++ department ++ "/bundle.json"

/-- End-to-end state-transformer reading of `generateBundleLogic`: list
the namespace, assemble and serialize the bundle, perform the single
snapshot write, return the snapshot path. -/
def runGenerateBundle (clinic department : String) (st : Storage) : Storage × String :=
  let files := listUnder st (videosDir clinic department)
  let json := bundleToJson (bundleOf clinic department files)
  (writeObject st (bundleFileOf clinic department) json, bundleFileOf clinic department)

/-- Syntax tree of a storage computation: each constructor is one awaited
storage operation followed by its continuation. -/
inductive StorageM (α : Type) where
  | pure : α → StorageM α
  | listFiles : String → (List String → StorageM α) → StorageM α
  | writeFile : String → String → StorageM α → StorageM α

/-- Runs a storage computation against a state.  The oracle says whether
the i-th storage operation succeeds; a failed operation aborts with an
error and leaves the state untouched by that operation onward.  The final
component counts the write operations actually performed. -/
def interp {α : Type} : StorageM α → Storage → Nat → (Nat → Bool) →
    Except Unit α × Storage × Nat
  | StorageM.pure a, st, _, _ => (Except.ok a, st, 0)
  | StorageM.listFiles p k, st, i, ok =>
    if ok i then interp (k (listUnder st p)) st (i + 1) ok
    else (Except.error (), st, 0)
  | StorageM.writeFile p c k, st, i, ok =>
    if ok i then
      let r := interp k (writeObject st p c) (i + 1) ok
      (r.1, r.2.1, r.2.2 + 1)
    else (Except.error (), st, 0)

/-- Operation-level reading of `generateBundleLogic`: one listing, pure
assembly, one snapshot write, return of the snapshot path. -/
def generateBundleM (clinic department : String) : StorageM String :=
  StorageM.listFiles (videosDir clinic department) (fun files =>
    StorageM.writeFile (bundleFileOf clinic department)
      (bundleToJson (bundleOf clinic department files))
      (StorageM.pure (bundleFileOf clinic department)))

/-- Per-language folder of a video: `videos/<clinic>/<department>/<name>/<lang>/`. -/
def langDir (clinic department name lang : String) : String :=
  "videos/" ++ clinic ++ "/" ++ department ++ "/" ++ name ++ "/" ++ lang ++ "/"

/-- The marker object name inside a per-language folder. -/
def placeholderOf (clinic department name lang : String) : String :=
  langDir clinic department name lang ++ ".placeholder"

/-- One iteration of the initializer loop: probe the per-language folder
and create the zero-byte marker only when the probe finds nothing. -/
def stepLang (clinic department name : String) (s : Storage) (lang : String) : Storage :=
  if listUnder s (langDir clinic department name lang) = [] then
    writeObject s (placeholderOf clinic department name lang) ""
  else s

/-- State-transformer reading of `createLanguageFolders`: trim and guard
the video name, then walk the language list in order. -/
def createLanguageFolders (clinic department videoName : String)
    (languages : List String) (st : Storage) : Storage :=
  if strTrim videoName = "" then st
  else languages.foldl (stepLang clinic department (strTrim videoName)) st

/-- Operation-level reading of the initializer loop body. -/
def langFoldersLoopM (clinic department name : String) : List String → StorageM Unit
  | [] => StorageM.pure ()
  | lang :: rest =>
    StorageM.listFiles (langDir clinic department name lang) (fun files =>
      if files = [] then
        StorageM.writeFile (placeholderOf clinic department name lang) ""
          (langFoldersLoopM clinic department name rest)
      else langFoldersLoopM clinic department name rest)

/-- Operation-level reading of `createLanguageFolders`, including the
empty-name early return that precedes every storage operation. -/
def createLanguageFoldersM (clinic department videoName : String)
    (languages : List String) : StorageM Unit :=
  if strTrim videoName = "" then StorageM.pure ()
  else langFoldersLoopM clinic department (strTrim videoName) languages

/-- The fixed default language list of the upload trigger. -/
def SUPPORTED_LANGUAGES : List String :=
  ["ar", "zh", "cs", "de", "en", "es", "fr", "hr", "hu", "it",
   "pl", "ro", "ru", "sk", "tr", "uk"]

/-- The upload-notification handler that backfills language folders: its
regex `^videos\/([^/]+)\/([^/]+)\/([^/]+)\//` demands a slash after the
third segment; on a match it invokes the initializer with the captured
clinic, department and third segment plus the fixed language list.  The
returned value records the invocation arguments, `none` meaning the
handler returns without invoking. -/
def createLanguageFoldersTrigger (name : String) :
    Option (String × String × String × List String) :=
  match splitSlash name.data with
  | root :: c :: d :: v :: _ :: _ =>
    if root = "videos".data ∧ c ≠ [] ∧ d ≠ [] ∧ v ≠ [] then
      some (String.mk c, String.mk d, String.mk v, SUPPORTED_LANGUAGES)
    else none
  | _ => none

/-- Finds the video entry with a given id, first match in array order. -/
def findVideo : List VideoEntry → String → Option VideoEntry
  | [], _ => none
  | v :: rest, vid => if v.id = vid then some v else findVideo rest vid

/-- The language entry of a bundle at a (videoId, langCode) key. -/
def Bundle.getLang (b : Bundle) (vid lang : String) : Option LangEntry :=
  match findVideo b.videos vid with
  | some v => lookupA v.languages lang
  | none => none

/-- The nested-map entry at a (videoId, langCode) key. -/
def getEntry (m : VideoMap) (vid lang : String) : Option LangEntry :=
  (lookupA m vid).bind (fun lm => lookupA lm lang)

/-- The effect of one listed name on the entry at a fixed key. -/
def applyFile (clinic department vid lang : String)
    (acc : Option LangEntry) (filePath : String) : Option LangEntry :=
  match parseFor clinic department filePath with
  | none => acc
  | some (v, l, e) =>
    if v = vid ∧ l = lang then some (applyExt e filePath (acc.getD ⟨"", ""⟩))
    else acc

/-- Whether a listed name parses to the given (videoId, langCode) key. -/
def matchesKey (clinic department vid lang : String) (f : String) : Bool :=
  match parseFor clinic department f with
  | some (v, l, _) => decide (v = vid) && decide (l = lang)
  | none => false

/-- Whether a listed name parses to the given (videoId, langCode, ext). -/
def matchesExt (clinic department vid lang ext : String) (f : String) : Bool :=
  decide (parseFor clinic department f = some (vid, lang, ext))

/-- The last listed name for a (videoId, langCode, ext) group. -/
def lastAsset (clinic department vid lang ext : String) (fs : List String) : Option String :=
  (fs.filter (matchesExt clinic department vid lang ext)).getLast?

/-- How many of the two fields of a language entry hold the name `n`. -/
def cellCnt (n : String) (e : LangEntry) : Nat :=
  (if e.videoPath = n then 1 else 0) + (if e.subtitlePath = n then 1 else 0)

/-- How many `videoPath` or `subtitlePath` values of a bundle equal `n`. -/
def pathOccurrences (b : Bundle) (n : String) : Nat :=
  (b.videos.map (fun v => (v.languages.map (fun le => cellCnt n le.2)).sum)).sum

/-- Structural sanity of a video map: outer keys distinct and every inner
language map has distinct keys. -/
def goodVM (m : VideoMap) : Prop :=
  (m.map (fun p => p.1)).Nodup ∧ ∀ p ∈ m, ((p.2.map (fun q => q.1)).Nodup)

/-- Grammar-rejection reason: the name does not consist of exactly five
slash-separated segments under the `videos` root. -/
def notFiveSegments (name : String) : Prop :=
  ∀ parts, splitSlash name.data = "videos".data :: parts → parts.length ≠ 5

/-- Grammar-rejection reason: the name ends in neither `.mp4` nor `.vtt`. -/
def badExtension (name : String) : Prop :=
  ¬ ((".mp4".data) <:+ name.data) ∧ ¬ ((".vtt".data) <:+ name.data)

/-- Grammar-rejection reason: the parsed clinic or department segment
differs from the builder arguments. -/
def wrongNamespace (clinic department name : String) : Prop :=
  ∀ p, parsePath name = some p → p.fileClinic ≠ clinic ∨ p.fileDept ≠ department

/-- The `videoPath` read off an optional entry, empty when absent. -/
def vpOf (o : Option LangEntry) : String := (o.getD ⟨"", ""⟩).videoPath

/-- The `subtitlePath` read off an optional entry, empty when absent. -/
def spOf (o : Option LangEntry) : String := (o.getD ⟨"", ""⟩).subtitlePath

/-- Two strings with the same character data are equal. -/
theorem strExt : ∀ {s t : String}, s.data = t.data → s = t
  | ⟨_⟩, ⟨_⟩, rfl => rfl

/-- Splitting never yields an empty list of parts. -/
theorem splitSlash_ne_nil : ∀ cs : List Char, splitSlash cs ≠ [] := by
  intro cs
  induction cs with
  | nil => simp [splitSlash]
  | cons c cs ih =>
    simp only [splitSlash]
    rcases h : splitSlash cs with _ | ⟨p, ps⟩
    · simp
    · by_cases hc : c = '/' <;> simp [hc]

/-- No part produced by `splitSlash` contains the slash character. -/
theorem no_slash_of_mem_splitSlash :
    ∀ (cs : List Char) (p : List Char), p ∈ splitSlash cs → '/' ∉ p := by
  intro cs
  induction cs with
  | nil =>
    intro p hp
    simp [splitSlash] at hp
    simp [hp]
  | cons c cs ih =>
    intro p hp
    simp only [splitSlash] at hp
    rcases h : splitSlash cs with _ | ⟨q, qs⟩
    · exact absurd h (splitSlash_ne_nil cs)
    · rw [h] at hp
      have hq : ∀ r, r ∈ splitSlash cs → '/' ∉ r := ih
      by_cases hc : c = '/'
      · simp only [if_pos hc] at hp
        rcases List.mem_cons.mp hp with hp1 | hp1
        · simp [hp1]
        · exact hq p (by rw [h]; exact hp1)
      · simp only [if_neg hc] at hp
        rcases List.mem_cons.mp hp with hp1 | hp1
        · subst hp1
          intro hmem
          rcases List.mem_cons.mp hmem with h1 | h1
          · exact hc h1.symm
          · exact hq q (by rw [h]; exact List.mem_cons_self _ _) h1
        · exact hq p (by rw [h]; exact List.mem_cons_of_mem _ hp1)

/-- Rejoining the split recovers the original characters. -/
theorem join_splitSlash : ∀ cs : List Char, joinSlash (splitSlash cs) = cs := by
  intro cs
  induction cs with
  | nil => simp [splitSlash, joinSlash]
  | cons c cs ih =>
    simp only [splitSlash]
    rcases h : splitSlash cs with _ | ⟨p, ps⟩
    · exact absurd h (splitSlash_ne_nil cs)
    · rw [h] at ih
      by_cases hc : c = '/'
      · simp [hc, joinSlash, ih]
      · simp only [if_neg hc]
        rcases ps with _ | ⟨q, qs⟩
        · simp [joinSlash] at ih ⊢
          rw [ih]
        · simp [joinSlash] at ih ⊢
          rw [ih]

/-- Lookup after an in-place update: the updated key reads back the
function applied to the previous value or the default, every other key
is untouched. -/
theorem lookupA_updateA {α : Type} (xs : List (String × α)) (k : String)
    (d : α) (f : α → α) (key : String) :
    lookupA (updateA xs k d f) key =
      if key = k then some (f ((lookupA xs k).getD d)) else lookupA xs key := by
  induction xs with
  | nil =>
    by_cases h : key = k
    · subst h
      simp [updateA, lookupA]
    · simp [updateA, lookupA, h, Ne.symm h]
  | cons e rest ih =>
    obtain ⟨k0, v⟩ := e
    by_cases h0 : k0 = k
    · subst h0
      by_cases h : key = k0
      · subst h
        simp [updateA, lookupA]
      · simp [updateA, lookupA, h, Ne.symm h]
    · by_cases h : key = k0
      · subst h
        simp [updateA, lookupA, h0, Ne.symm h0]
      · simp [updateA, lookupA, h0, Ne.symm h, ih]

/-- The keys after an update: unchanged when present, appended otherwise. -/
theorem keys_updateA {α : Type} (xs : List (String × α)) (k : String)
    (d : α) (f : α → α) :
    (updateA xs k d f).map (fun p => p.1) =
      if k ∈ xs.map (fun p => p.1) then xs.map (fun p => p.1)
      else xs.map (fun p => p.1) ++ [k] := by
  induction xs with
  | nil => simp [updateA]
  | cons e rest ih =>
    obtain ⟨k0, v⟩ := e
    by_cases h0 : k0 = k
    · subst h0
      simp [updateA]
    · simp only [updateA, if_neg h0, List.map_cons]
      rw [ih]
      by_cases h : k ∈ rest.map (fun p => p.1)
      · simp [h, Ne.symm h0]
      · simp [h, Ne.symm h0]

/-- Updates preserve distinctness of keys. -/
theorem nodup_keys_updateA {α : Type} (xs : List (String × α)) (k : String)
    (d : α) (f : α → α) (h : (xs.map (fun p => p.1)).Nodup) :
    ((updateA xs k d f).map (fun p => p.1)).Nodup := by
  rw [keys_updateA]
  by_cases hk : k ∈ xs.map (fun p => p.1)
  · simpa [hk] using h
  · simp only [if_neg hk]
    exact List.Nodup.append h (List.nodup_singleton k) (by simpa using hk)

/-- Every entry of an update is an old entry or carries the updated key
with a value obtained through the update function. -/
theorem mem_updateA {α : Type} (xs : List (String × α)) (k : String)
    (d : α) (f : α → α) (p : String × α) (hp : p ∈ updateA xs k d f) :
    p ∈ xs ∨ p.1 = k ∧ (p.2 = f d ∨ ∃ w, (k, w) ∈ xs ∧ p.2 = f w) := by
  induction xs with
  | nil =>
    simp [updateA] at hp
    subst hp
    simp
  | cons e rest ih =>
    obtain ⟨k0, v⟩ := e
    by_cases h0 : k0 = k
    · subst h0
      simp only [updateA, if_pos rfl] at hp
      rcases List.mem_cons.mp hp with h1 | h1
      · subst h1
        exact Or.inr ⟨rfl, Or.inr ⟨v, List.mem_cons_self _ _, rfl⟩⟩
      · exact Or.inl (List.mem_cons_of_mem _ h1)
    · simp only [updateA, if_neg h0] at hp
      rcases List.mem_cons.mp hp with h1 | h1
      · exact Or.inl (h1 ▸ List.mem_cons_self _ _)
      · rcases ih h1 with h2 | ⟨h2, h3⟩
        · exact Or.inl (List.mem_cons_of_mem _ h2)
        · refine Or.inr ⟨h2, ?_⟩
          rcases h3 with h3 | ⟨w, hw, hw2⟩
          · exact Or.inl h3
          · exact Or.inr ⟨w, List.mem_cons_of_mem _ hw, hw2⟩

/-- A successful lookup comes from a stored entry. -/
theorem mem_of_lookupA {α : Type} (xs : List (String × α)) (k : String) (v : α)
    (h : lookupA xs k = some v) : (k, v) ∈ xs := by
  induction xs with
  | nil => simp [lookupA] at h
  | cons e rest ih =>
    obtain ⟨k0, v0⟩ := e
    by_cases h0 : k0 = k
    · subst h0
      simp [lookupA] at h
      subst h
      exact List.mem_cons_self _ _
    · simp [lookupA, if_neg h0] at h
      exact List.mem_cons_of_mem _ (ih h)

/-- With distinct keys, membership determines the lookup result. -/
theorem lookupA_of_mem_nodup {α : Type} (xs : List (String × α)) (k : String) (v : α)
    (hnd : (xs.map (fun p => p.1)).Nodup) (h : (k, v) ∈ xs) :
    lookupA xs k = some v := by
  induction xs with
  | nil => simp at h
  | cons e rest ih =>
    obtain ⟨k0, v0⟩ := e
    rw [List.map_cons] at hnd
    have hnd' := List.nodup_cons.mp hnd
    rcases List.mem_cons.mp h with h1 | h1
    · have hk : k0 = k := congrArg Prod.fst h1.symm
      subst hk
      simp [lookupA]
      exact congrArg Prod.snd h1.symm
    · have hk : k0 ≠ k := by
        intro hkk
        subst hkk
        exact hnd'.1 (List.mem_map.mpr ⟨(k0, v), h1, rfl⟩)
      simp [lookupA, if_neg hk]
      exact ih hnd'.2 h1

/-- One builder-loop iteration preserves structural sanity of the maps. -/
theorem goodVM_processFile (clinic department : String) (m : VideoMap)
    (f : String) (h : goodVM m) : goodVM (processFile clinic department m f) := by
  unfold processFile
  rcases hp : parseFor clinic department f with _ | ⟨vid, lang, ext⟩
  · exact h
  · constructor
    · exact nodup_keys_updateA _ _ _ _ h.1
    · intro p hp2
      rcases mem_updateA _ _ _ _ p hp2 with h1 | ⟨h1, h2⟩
      · exact h.2 p h1
      · rcases h2 with h2 | ⟨w, hw, hw2⟩
        · rw [h2]
          exact nodup_keys_updateA _ _ _ _ (by simp)
        · rw [hw2]
          exact nodup_keys_updateA _ _ _ _ (h.2 (vid, w) hw)

/-- The builder state is structurally sane after the whole scan. -/
theorem goodVM_buildVideoMap (clinic department : String) (files : List String) :
    goodVM (buildVideoMap clinic department files) := by
  unfold buildVideoMap
  suffices hgen : ∀ (fs : List String) (m : VideoMap), goodVM m →
      goodVM (fs.foldl (processFile clinic department) m) by
    exact hgen files [] ⟨by simp, by simp⟩
  intro fs
  induction fs with
  | nil => intro m hm; exact hm
  | cons f fs ih =>
    intro m hm
    exact ih _ (goodVM_processFile clinic department m f hm)

/-- Pointwise effect of one loop iteration on the entry at a fixed key. -/
theorem getEntry_processFile (clinic department : String) (m : VideoMap)
    (f : String) (vid lang : String) :
    getEntry (processFile clinic department m f) vid lang =
      applyFile clinic department vid lang (getEntry m vid lang) f := by
  unfold processFile applyFile
  rcases hp : parseFor clinic department f with _ | ⟨v, l, e⟩
  · rfl
  · by_cases hv : v = vid
    · subst hv
      unfold getEntry
      rw [lookupA_updateA]
      simp only [if_pos rfl, if_true, true_and, Option.some_bind]
      rcases hm : lookupA m v with _ | lm
      · simp only [Option.getD_none, Option.none_bind]
        rw [lookupA_updateA]
        by_cases hl : l = lang
        · subst hl
          simp [lookupA]
        · simp [Ne.symm hl, hl, lookupA]
      · simp only [Option.getD_some, Option.some_bind]
        rw [lookupA_updateA]
        by_cases hl : l = lang
        · subst hl
          simp
        · simp [Ne.symm hl, hl]
    · unfold getEntry
      rw [lookupA_updateA]
      simp [Ne.symm hv, hv]

/-- Folding the builder loop acts pointwise on each (videoId, lang) key. -/
theorem getEntry_foldl (clinic department : String) (vid lang : String) :
    ∀ (fs : List String) (m : VideoMap),
      getEntry (fs.foldl (processFile clinic department) m) vid lang =
        fs.foldl (applyFile clinic department vid lang) (getEntry m vid lang) := by
  intro fs
  induction fs with
  | nil => intro m; rfl
  | cons f fs ih =>
    intro m
    simp only [List.foldl_cons]
    rw [ih, getEntry_processFile]

/-- Case analysis on a recognised extension. -/
theorem fileExt_cases (f : List Char) (e : String) (h : fileExt f = some e) :
    (e = "mp4" ∧ (".mp4".data) <:+ f ∧ 5 ≤ f.length) ∨
    (e = "vtt" ∧ (".vtt".data) <:+ f ∧ 5 ≤ f.length) := by
  unfold fileExt at h
  split_ifs at h with h1 h2
  · exact Or.inl ⟨(Option.some.inj h).symm, h1.1, h1.2⟩
  · exact Or.inr ⟨(Option.some.inj h).symm, h2.1, h2.2⟩

/-- Shape of a successful grammar match. -/
theorem parsePath_shape (n : String) (p : ParsedPath) (h : parsePath n = some p) :
    ∃ c d v l f, splitSlash n.data = ["videos".data, c, d, v, l, f] ∧
      c ≠ [] ∧ d ≠ [] ∧ v ≠ [] ∧ l ≠ [] ∧ fileExt f = some p.ext ∧
      p.fileClinic = String.mk c ∧ p.fileDept = String.mk d ∧
      p.videoId = String.mk v ∧ p.lang = String.mk l := by
  unfold parsePath at h
  rcases hs : splitSlash n.data with _ | ⟨r, _ | ⟨c, _ | ⟨d, _ | ⟨v, _ | ⟨l, _ | ⟨f, _ | ⟨g, gs⟩⟩⟩⟩⟩⟩⟩ <;>
    rw [hs] at h <;> try exact Option.noConfusion h
  have h2 : (if r = "videos".data ∧ c ≠ [] ∧ d ≠ [] ∧ v ≠ [] ∧ l ≠ [] then
      (match fileExt f with
        | some ext =>
          some (⟨String.mk c, String.mk d, String.mk v, String.mk l, ext⟩ : ParsedPath)
        | none => none)
    else none) = some p := h
  split_ifs at h2 with hg
  · rcases hfe : fileExt f with _ | ext
    · rw [hfe] at h2
      exact Option.noConfusion h2
    · rw [hfe] at h2
      have hp := (Option.some.inj h2).symm
      subst hp
      obtain ⟨hr, hc, hd, hv, hl⟩ := hg
      subst hr
      exact ⟨c, d, v, l, f, rfl, hc, hd, hv, hl, hfe, rfl, rfl, rfl, rfl⟩

/-- The namespace-checked parse succeeds exactly when the raw parse
reads back the builder arguments. -/
theorem parseFor_iff (clinic department n vid lang ext : String) :
    parseFor clinic department n = some (vid, lang, ext) ↔
      parsePath n = some ⟨clinic, department, vid, lang, ext⟩ := by
  unfold parseFor
  rcases hp : parsePath n with _ | p
  · simp
  · obtain ⟨pc, pd, pv, pl, pe⟩ := p
    by_cases hg : pc = clinic ∧ pd = department
    · obtain ⟨hgc, hgd⟩ := hg
      subst hgc
      subst hgd
      simp [ParsedPath.mk.injEq]
    · constructor
      · intro h
        simp [hg] at h
      · intro h
        have h3 := Option.some.inj h
        rw [ParsedPath.mk.injEq] at h3
        exact absurd ⟨h3.1, h3.2.1⟩ hg

/-- The parsed extension is one of the two recognised ones. -/
theorem parseFor_ext (clinic department n vid lang ext : String)
    (h : parseFor clinic department n = some (vid, lang, ext)) :
    ext = "mp4" ∨ ext = "vtt" := by
  obtain ⟨c, d, v, l, f, hs, hc, hd, hv, hl, hfe, h1, h2, h3, h4⟩ :=
    parsePath_shape n _ ((parseFor_iff clinic department n vid lang ext).mp h)
  rcases fileExt_cases f _ hfe with ⟨he, _⟩ | ⟨he, _⟩
  · exact Or.inl he
  · exact Or.inr he

/-- A name accepted by the grammar is never the empty string. -/
theorem parseFor_ne_empty (clinic department n : String) (x : String × String × String)
    (h : parseFor clinic department n = some x) : n ≠ "" := by
  intro hn
  subst hn
  exact absurd h (by simp [parseFor, parsePath, splitSlash])

/-- One listed name changes the `videoPath` reading exactly when it is
the mp4 object of this key. -/
theorem vpOf_applyFile (clinic department vid lang : String)
    (acc : Option LangEntry) (f : String) :
    vpOf (applyFile clinic department vid lang acc f) =
      if matchesExt clinic department vid lang "mp4" f then f else vpOf acc := by
  unfold applyFile matchesExt
  rcases hp : parseFor clinic department f with _ | ⟨v, l, e⟩
  · simp
  · by_cases hg : v = vid ∧ l = lang
    · obtain ⟨hv, hl⟩ := hg
      subst hv
      subst hl
      simp only [eq_self_iff_true, and_self, if_true]
      by_cases he : e = "mp4"
      · subst he
        simp [vpOf, applyExt]
      · simp [he, vpOf, applyExt, Prod.ext_iff]
    · have hne : ¬(v, l, e) = (vid, lang, "mp4") := by
        intro hx
        rw [Prod.ext_iff, Prod.ext_iff] at hx
        exact hg ⟨hx.1, hx.2.1⟩
      simp [hg, hne]

/-- One listed name changes the `subtitlePath` reading exactly when it
is the vtt object of this key. -/
theorem spOf_applyFile (clinic department vid lang : String)
    (acc : Option LangEntry) (f : String) :
    spOf (applyFile clinic department vid lang acc f) =
      if matchesExt clinic department vid lang "vtt" f then f else spOf acc := by
  unfold applyFile matchesExt
  rcases hp : parseFor clinic department f with _ | ⟨v, l, e⟩
  · simp
  · by_cases hg : v = vid ∧ l = lang
    · obtain ⟨hv, hl⟩ := hg
      subst hv
      subst hl
      simp only [eq_self_iff_true, and_self, if_true]
      rcases parseFor_ext clinic department f v l e hp with he | he
      · subst he
        simp [spOf, applyExt, Prod.ext_iff]
      · subst he
        simp [spOf, applyExt]
    · have hne : ¬(v, l, e) = (vid, lang, "vtt") := by
        intro hx
        rw [Prod.ext_iff, Prod.ext_iff] at hx
        exact hg ⟨hx.1, hx.2.1⟩
      simp [hg, hne]

/-- Generic last-write reading of the loop: if one step overwrites a
reading exactly on a marked name, the fold ends with the last marked
name, or the initial reading when none is marked. -/
theorem foldl_last_generic (μ : Option LangEntry → String) (mf : String → Bool)
    (step : Option LangEntry → String → Option LangEntry)
    (hstep : ∀ acc f, μ (step acc f) = if mf f then f else μ acc) :
    ∀ (fs : List String) (acc : Option LangEntry),
      μ (fs.foldl step acc) = ((fs.filter mf).getLast?).getD (μ acc) := by
  intro fs
  induction fs with
  | nil => intro acc; simp
  | cons f fs ih =>
    intro acc
    rw [List.foldl_cons, ih, hstep, List.filter_cons]
    by_cases hmf : mf f = true
    · simp only [hmf, if_true, List.getLast?_cons]
      rcases h : (fs.filter mf).getLast? with _ | x <;> simp [h]
    · simp [hmf]

/-- A step never erases an existing entry. -/
theorem applyFile_isSome (clinic department vid lang : String)
    (acc : Option LangEntry) (f : String) (h : acc.isSome) :
    (applyFile clinic department vid lang acc f).isSome := by
  unfold applyFile
  rcases parseFor clinic department f with _ | ⟨v, l, e⟩
  · exact h
  · by_cases hg : v = vid ∧ l = lang
    · simp [hg]
    · simpa [hg] using h

/-- The fold produces no entry exactly when it starts with none and no
listed name carries this key. -/
theorem foldl_applyFile_eq_none (clinic department vid lang : String) :
    ∀ (fs : List String) (acc : Option LangEntry),
      fs.foldl (applyFile clinic department vid lang) acc = none ↔
        acc = none ∧ fs.filter (matchesKey clinic department vid lang) = [] := by
  intro fs
  induction fs with
  | nil => intro acc; simp
  | cons f fs ih =>
    intro acc
    rw [List.foldl_cons, ih, List.filter_cons]
    by_cases hmf : matchesKey clinic department vid lang f = true
    · constructor
      · rintro ⟨ha, _⟩
        exfalso
        unfold applyFile at ha
        unfold matchesKey at hmf
        rcases hp : parseFor clinic department f with _ | ⟨v, l, e⟩
        · rw [hp] at hmf
          exact Bool.noConfusion hmf
        · rw [hp] at ha hmf
          simp only [Bool.and_eq_true, decide_eq_true_eq] at hmf
          simp [hmf] at ha
      · rintro ⟨_, hcons⟩
        rw [if_pos hmf] at hcons
        exact absurd hcons (List.cons_ne_nil _ _)
    · have hid : applyFile clinic department vid lang acc f = acc := by
        unfold applyFile
        unfold matchesKey at hmf
        rcases hp : parseFor clinic department f with _ | ⟨v, l, e⟩
        · rfl
        · rw [hp] at hmf
          simp only [Bool.and_eq_true, decide_eq_true_eq] at hmf
          simp [hmf]
      rw [hid]
      simp [hmf]

/-- The entry at a key after the whole scan: absent when no listed name
carries the key, otherwise the pair of last-written paths. -/
theorem getEntry_buildVideoMap (clinic department vid lang : String) (fs : List String) :
    getEntry (buildVideoMap clinic department fs) vid lang =
      if fs.filter (matchesKey clinic department vid lang) = [] then none
      else some ⟨(lastAsset clinic department vid lang "mp4" fs).getD "",
                 (lastAsset clinic department vid lang "vtt" fs).getD ""⟩ := by
  unfold buildVideoMap
  rw [getEntry_foldl]
  have hE : getEntry ([] : VideoMap) vid lang = none := rfl
  rw [hE]
  by_cases hnil : fs.filter (matchesKey clinic department vid lang) = []
  · rw [if_pos hnil]
    exact (foldl_applyFile_eq_none clinic department vid lang fs none).mpr ⟨rfl, hnil⟩
  · rw [if_neg hnil]
    rcases hr : fs.foldl (applyFile clinic department vid lang) none with _ | e
    · exact absurd ((foldl_applyFile_eq_none clinic department vid lang fs none).mp hr).2 hnil
    · have hvp : e.videoPath = (lastAsset clinic department vid lang "mp4" fs).getD "" := by
        have := foldl_last_generic vpOf (matchesExt clinic department vid lang "mp4")
          (applyFile clinic department vid lang)
          (vpOf_applyFile clinic department vid lang) fs none
        rw [hr] at this
        exact this
      have hsp : e.subtitlePath = (lastAsset clinic department vid lang "vtt" fs).getD "" := by
        have := foldl_last_generic spOf (matchesExt clinic department vid lang "vtt")
          (applyFile clinic department vid lang)
          (spOf_applyFile clinic department vid lang) fs none
        rw [hr] at this
        exact this
      rw [show e = ⟨e.videoPath, e.subtitlePath⟩ from rfl, hvp, hsp]

/-- Finding a video entry in the assembled array is looking up the map. -/
theorem findVideo_map (m : VideoMap) (vid : String) :
    findVideo (m.map (fun p => ⟨p.1, p.1, p.2⟩)) vid =
      (lookupA m vid).map (fun lm => (⟨vid, vid, lm⟩ : VideoEntry)) := by
  induction m with
  | nil => rfl
  | cons e rest ih =>
    obtain ⟨k, lm⟩ := e
    by_cases hk : k = vid
    · subst hk
      simp [findVideo, lookupA]
    · simp [findVideo, lookupA, hk, ih]

/-- The bundle accessor agrees with the nested-map entry. -/
theorem getLang_bundleOf (clinic department : String) (fs : List String) (vid lang : String) :
    (bundleOf clinic department fs).getLang vid lang =
      getEntry (buildVideoMap clinic department fs) vid lang := by
  unfold bundleOf Bundle.getLang getEntry
  rw [findVideo_map]
  rcases lookupA (buildVideoMap clinic department fs) vid with _ | lm <;> simp

/-- A field read off the last asset of a group identifies the group. -/
theorem field_forces_key (clinic department vid lang ext : String) (fs : List String)
    (n : String) (hx : (lastAsset clinic department vid lang ext fs).getD "" = n)
    (hn : n ≠ "") : parseFor clinic department n = some (vid, lang, ext) := by
  rcases hl : lastAsset clinic department vid lang ext fs with _ | x
  · rw [hl] at hx
    simp only [Option.getD_none] at hx
    exact absurd hx.symm hn
  · rw [hl] at hx
    simp only [Option.getD_some] at hx
    subst hx
    have hmem := List.mem_of_getLast?_eq_some hl
    have hme := (List.mem_filter.mp hmem).2
    exact of_decide_eq_true hme

/-- An entry stored under a key other than the one a name parses to
never holds that name in either field. -/
theorem cellCnt_zero_of_ne (clinic department : String) (fs : List String)
    (n vn ln en : String) (hn : parseFor clinic department n = some (vn, ln, en))
    (vid lang : String) (e : LangEntry)
    (hent : getEntry (buildVideoMap clinic department fs) vid lang = some e)
    (hne : ¬(vid = vn ∧ lang = ln)) : cellCnt n e = 0 := by
  have hne' : n ≠ "" := parseFor_ne_empty clinic department n _ hn
  rw [getEntry_buildVideoMap] at hent
  split_ifs at hent with hfil
  have he := (Option.some.inj hent).symm
  subst he
  have hvp : ¬((lastAsset clinic department vid lang "mp4" fs).getD "" = n) := by
    intro hx
    have := field_forces_key clinic department vid lang "mp4" fs n hx hne'
    rw [hn] at this
    have h2 := Option.some.inj this
    rw [Prod.ext_iff, Prod.ext_iff] at h2
    exact hne ⟨h2.1.symm, h2.2.1.symm⟩
  have hsp : ¬((lastAsset clinic department vid lang "vtt" fs).getD "" = n) := by
    intro hx
    have := field_forces_key clinic department vid lang "vtt" fs n hx hne'
    rw [hn] at this
    have h2 := Option.some.inj this
    rw [Prod.ext_iff, Prod.ext_iff] at h2
    exact hne ⟨h2.1.symm, h2.2.1.symm⟩
  simp [cellCnt, hvp, hsp]

/-- The entry at the key a name parses to holds that name exactly once
when the name is the last of its group. -/
theorem cellCnt_one_at_key (clinic department : String) (fs : List String)
    (n vn ln en : String) (hn : parseFor clinic department n = some (vn, ln, en))
    (hlast : lastAsset clinic department vn ln en fs = some n)
    (e : LangEntry)
    (hent : getEntry (buildVideoMap clinic department fs) vn ln = some e) :
    cellCnt n e = 1 := by
  have hne' : n ≠ "" := parseFor_ne_empty clinic department n _ hn
  rw [getEntry_buildVideoMap] at hent
  split_ifs at hent with hfil
  have he := (Option.some.inj hent).symm
  subst he
  rcases parseFor_ext clinic department n vn ln en hn with hext | hext
  · subst hext
    have hvp : (lastAsset clinic department vn ln "mp4" fs).getD "" = n := by
      rw [hlast]
      rfl
    have hsp : ¬((lastAsset clinic department vn ln "vtt" fs).getD "" = n) := by
      intro hx
      have := field_forces_key clinic department vn ln "vtt" fs n hx hne'
      rw [hn] at this
      have h2 := Option.some.inj this
      rw [Prod.ext_iff, Prod.ext_iff] at h2
      simp at h2
    simp [cellCnt, hvp, hsp]
  · subst hext
    have hsp : (lastAsset clinic department vn ln "vtt" fs).getD "" = n := by
      rw [hlast]
      rfl
    have hvp : ¬((lastAsset clinic department vn ln "mp4" fs).getD "" = n) := by
      intro hx
      have := field_forces_key clinic department vn ln "mp4" fs n hx hne'
      rw [hn] at this
      have h2 := Option.some.inj this
      rw [Prod.ext_iff, Prod.ext_iff] at h2
      simp at h2
    simp [cellCnt, hvp, hsp]

/-- Summing a per-entry count over an association list with distinct
keys, when only one key can contribute, reads off that key. -/
theorem sum_eq_lookup_cell {α : Type} (xs : List (String × α)) (g : α → Nat) (k : String)
    (hnd : (xs.map (fun p => p.1)).Nodup)
    (hz : ∀ p ∈ xs, p.1 ≠ k → g p.2 = 0) :
    (xs.map (fun p => g p.2)).sum =
      (match lookupA xs k with
        | some v => g v
        | none => 0) := by
  induction xs with
  | nil => rfl
  | cons e rest ih =>
    obtain ⟨k0, v0⟩ := e
    rw [List.map_cons] at hnd
    have hnd' := List.nodup_cons.mp hnd
    rw [List.map_cons, List.sum_cons]
    by_cases h0 : k0 = k
    · subst h0
      have hrest : ∀ p ∈ rest.map (fun p => g p.2), p = 0 := by
        intro x hx
        obtain ⟨p, hp, hpx⟩ := List.mem_map.mp hx
        rw [← hpx]
        apply hz p (List.mem_cons_of_mem _ hp)
        intro hk
        exact hnd'.1 (hk ▸ List.mem_map.mpr ⟨p, hp, rfl⟩)
      rw [List.sum_eq_zero hrest]
      simp [lookupA]
    · have hh : g v0 = 0 := hz (k0, v0) (List.mem_cons_self _ _) h0
      rw [hh, ih hnd'.2 (fun p hp hpk => hz p (List.mem_cons_of_mem _ hp) hpk)]
      simp [lookupA, h0]

/-- The number of bundle fields holding a given grammar-matching name:
zero everywhere except possibly at the key the name parses to. -/
theorem pathOccurrences_eq (clinic department : String) (fs : List String)
    (n vn ln en : String) (hn : parseFor clinic department n = some (vn, ln, en)) :
    pathOccurrences (bundleOf clinic department fs) n =
      (match getEntry (buildVideoMap clinic department fs) vn ln with
        | some e => cellCnt n e
        | none => 0) := by
  have hgood := goodVM_buildVideoMap clinic department fs
  unfold pathOccurrences bundleOf
  simp only [List.map_map]
  have hcomp : ((fun v : VideoEntry => (v.languages.map (fun le => cellCnt n le.2)).sum) ∘
      (fun p : String × LangMap => (⟨p.1, p.1, p.2⟩ : VideoEntry))) =
      (fun p : String × LangMap => (p.2.map (fun le => cellCnt n le.2)).sum) := rfl
  rw [hcomp]
  set m := buildVideoMap clinic department fs with hm
  rw [sum_eq_lookup_cell m (fun lm => (lm.map (fun le => cellCnt n le.2)).sum) vn hgood.1]
  · rcases hlk : lookupA m vn with _ | lm
    · unfold getEntry
      rw [hlk]
      rfl
    · have hmem : (vn, lm) ∈ m := mem_of_lookupA m vn lm hlk
      have hlmnd := hgood.2 (vn, lm) hmem
      change (lm.map (fun le => cellCnt n le.2)).sum = _
      rw [sum_eq_lookup_cell lm (fun le => cellCnt n le) ln hlmnd]
      · unfold getEntry
        rw [hlk]
        change _ = (match lookupA lm ln with
          | some e => cellCnt n e
          | none => 0)
        rcases hlk2 : lookupA lm ln with _ | e <;> rfl
      · intro q hq hqk
        have hqe : lookupA lm q.1 = some q.2 := lookupA_of_mem_nodup lm q.1 q.2 hlmnd
          (by rw [show ((q.1, q.2) : String × LangEntry) = q from rfl]; exact hq)
        have hge : getEntry m vn q.1 = some q.2 := by
          unfold getEntry
          rw [hlk]
          exact hqe
        exact cellCnt_zero_of_ne clinic department fs n vn ln en hn vn q.1 q.2 hge
          (fun hc => hqk hc.2)
  · intro p hp hpk
    apply List.sum_eq_zero
    intro x hx
    obtain ⟨q, hq, hqx⟩ := List.mem_map.mp hx
    rw [← hqx]
    have hlm : lookupA m p.1 = some p.2 := lookupA_of_mem_nodup m p.1 p.2 hgood.1
      (by rw [show ((p.1, p.2) : String × LangMap) = p from rfl]; exact hp)
    have hlmnd := hgood.2 p hp
    have hqe : lookupA p.2 q.1 = some q.2 := lookupA_of_mem_nodup p.2 q.1 q.2 hlmnd
      (by rw [show ((q.1, q.2) : String × LangEntry) = q from rfl]; exact hq)
    have hge : getEntry m p.1 q.1 = some q.2 := by
      unfold getEntry
      rw [hlm]
      exact hqe
    exact cellCnt_zero_of_ne clinic department fs n vn ln en hn p.1 q.1 q.2 hge
      (fun hc => hpk hc.1)

/-- Listing depends only on the stored names. -/
theorem listUnder_names (st : Storage) (p : String) :
    listUnder st p = (st.map (fun e => e.1)).filter (fun nm => decide (p.data <+: nm.data)) := by
  induction st with
  | nil => rfl
  | cons e rest ih =>
    by_cases h : (p.data <+: e.1.data)
    · simp [listUnder, List.filter_cons, h] at ih ⊢
      exact ih
    · simp [listUnder, List.filter_cons, h] at ih ⊢
      exact ih

/-- The names after a write: unchanged when the path was present,
appended otherwise. -/
theorem writeObject_names (st : Storage) (path c : String) :
    (writeObject st path c).map (fun e => e.1) =
      if path ∈ st.map (fun e => e.1) then st.map (fun e => e.1)
      else st.map (fun e => e.1) ++ [path] := by
  induction st with
  | nil => simp [writeObject]
  | cons e rest ih =>
    obtain ⟨nm, ct⟩ := e
    by_cases h0 : nm = path
    · subst h0
      simp [writeObject]
    · simp only [writeObject, if_neg h0, List.map_cons]
      rw [ih]
      by_cases h : path ∈ rest.map (fun e => e.1)
      · simp [h, Ne.symm h0]
      · simp [h, Ne.symm h0]

/-- Writing outside a namespace leaves its listing unchanged. -/
theorem listUnder_writeObject_of_not_under (st : Storage) (path c p : String)
    (h : ¬ (p.data <+: path.data)) :
    listUnder (writeObject st path c) p = listUnder st p := by
  rw [listUnder_names, listUnder_names, writeObject_names]
  by_cases hmem : path ∈ st.map (fun e => e.1)
  · rw [if_pos hmem]
  · rw [if_neg hmem, List.filter_append]
    simp [h]

/-- A write never empties a non-empty listing. -/
theorem listUnder_writeObject_mono (st : Storage) (path c p : String)
    (h : listUnder st p ≠ []) :
    listUnder (writeObject st path c) p ≠ [] := by
  rw [listUnder_names] at h ⊢
  rw [writeObject_names]
  by_cases hmem : path ∈ st.map (fun e => e.1)
  · rwa [if_pos hmem]
  · rw [if_neg hmem, List.filter_append]
    intro hx
    exact h (List.append_eq_nil.mp hx).1

/-- After writing a path inside a namespace, its listing is non-empty. -/
theorem listUnder_writeObject_self (st : Storage) (path c p : String)
    (h : p.data <+: path.data) :
    listUnder (writeObject st path c) p ≠ [] := by
  rw [listUnder_names, writeObject_names]
  by_cases hmem : path ∈ st.map (fun e => e.1)
  · rw [if_pos hmem]
    intro hx
    have : path ∉ (st.map (fun e => e.1)).filter (fun nm => decide (p.data <+: nm.data)) := by
      rw [hx]
      exact List.not_mem_nil path
    exact this (List.mem_filter.mpr ⟨hmem, decide_eq_true h⟩)
  · rw [if_neg hmem, List.filter_append]
    intro hx
    have h2 := (List.append_eq_nil.mp hx).2
    simp [h] at h2

/-- Re-writing the same path and content changes nothing. -/
theorem writeObject_idem (st : Storage) (p c : String) :
    writeObject (writeObject st p c) p c = writeObject st p c := by
  induction st with
  | nil => simp [writeObject]
  | cons e rest ih =>
    obtain ⟨nm, ct⟩ := e
    by_cases h0 : nm = p
    · subst h0
      simp [writeObject]
    · simp [writeObject, h0, ih]

/-- A write leaves every other object unchanged. -/
theorem getObject_writeObject_ne (st : Storage) (p c q : String) (h : q ≠ p) :
    getObject (writeObject st p c) q = getObject st q := by
  induction st with
  | nil => simp [writeObject, getObject, lookupA, Ne.symm h]
  | cons e rest ih =>
    obtain ⟨nm, ct⟩ := e
    by_cases h0 : nm = p
    · subst h0
      simp only [writeObject, if_pos rfl]
      simp [getObject, lookupA, Ne.symm h]
    · by_cases h1 : nm = q
      · subst h1
        simp [writeObject, getObject, lookupA, h0]
      · simp [writeObject, getObject, lookupA, h0, h1] at ih ⊢
        exact ih

/-- The videos namespace starts with the letter v. -/
theorem videosDir_head (clinic department : String) :
    videosDir clinic department = "v" ++ ("ideos/" ++ clinic ++ "/" ++ department ++ "/") := by
  apply strExt
  simp [videosDir, String.data_append, List.append_assoc]

/-- The snapshot location starts with the letter b. -/
theorem bundleFileOf_head (clinic department : String) :
    bundleFileOf clinic department =
      "b" ++ ("undles/" ++ clinic ++ "/" ++ department ++ "/bundle.json") := by
  apply strExt
  simp [bundleFileOf, String.data_append, List.append_assoc]

/-- The snapshot never lies inside any videos namespace. -/
theorem bundleFile_not_under_videos (c1 d1 c2 d2 : String) :
    ¬ ((videosDir c1 d1).data <+: (bundleFileOf c2 d2).data) := by
  intro h
  rw [videosDir_head, bundleFileOf_head, String.data_append, String.data_append] at h
  have h2 : ('v' :: ("ideos/" ++ c1 ++ "/" ++ d1 ++ "/").data) <+:
      ('b' :: ("undles/" ++ c2 ++ "/" ++ d2 ++ "/bundle.json").data) := h
  exact absurd (List.cons_prefix_cons.mp h2).1 (by decide)

/-- A growing chain: a suffix stays a suffix across a slash join step. -/
theorem suffix_append_cons (x s y : List Char) (c : Char) (h : x <:+ s) :
    x <:+ y ++ c :: s := by
  obtain ⟨t, ht⟩ := h
  exact ⟨y ++ c :: t, by simp [List.append_assoc, ht]⟩

/-- The file segment of a six-part split is a suffix of the whole name. -/
theorem last_seg_suffix (n : String) (r c d v l f : List Char)
    (hs : splitSlash n.data = [r, c, d, v, l, f]) : f <:+ n.data := by
  have hj := join_splitSlash n.data
  rw [hs] at hj
  have hjoin : joinSlash [r, c, d, v, l, f] =
      r ++ '/' :: (c ++ '/' :: (d ++ '/' :: (v ++ '/' :: (l ++ '/' :: f)))) := rfl
  rw [hjoin] at hj
  rw [← hj]
  exact suffix_append_cons _ _ _ _ (suffix_append_cons _ _ _ _ (suffix_append_cons _ _ _ _
    (suffix_append_cons _ _ _ _ (suffix_append_cons _ _ _ _ (List.suffix_refl f)))))

/-- Rejected names: each of the three grammar-rejection reasons makes
the namespace-checked parse fail. -/
theorem parseFor_none_of_reason (clinic department name : String)
    (h : notFiveSegments name ∨ badExtension name ∨ wrongNamespace clinic department name) :
    parseFor clinic department name = none := by
  rcases hp : parseFor clinic department name with _ | ⟨v, l, e⟩
  · rfl
  · exfalso
    have hpp := (parseFor_iff clinic department name v l e).mp hp
    obtain ⟨c2, d2, v2, l2, f, hs, hc, hd, hv, hl, hfe, h1, h2, h3, h4⟩ :=
      parsePath_shape name _ hpp
    rcases h with h | h | h
    · exact h [c2, d2, v2, l2, f] hs rfl
    · have hsuf : f <:+ name.data := last_seg_suffix name _ c2 d2 v2 l2 f hs
      rcases fileExt_cases f _ hfe with ⟨_, hsf, _⟩ | ⟨_, hsf, _⟩
      · exact h.1 (hsf.trans hsuf)
      · exact h.2 (hsf.trans hsuf)
    · rcases h _ hpp with hx | hx
      · exact hx rfl
      · exact hx rfl

/-- A name the grammar rejects leaves the loop state unchanged. -/
theorem processFile_none (clinic department : String) (m : VideoMap) (n : String)
    (h : parseFor clinic department n = none) :
    processFile clinic department m n = m := by
  unfold processFile
  rw [h]

/-- A clinic or department argument containing a slash can never equal a
parsed segment, so every listed name is rejected. -/
theorem parseFor_none_of_slash (clinic department f : String)
    (h : '/' ∈ clinic.data ∨ '/' ∈ department.data) :
    parseFor clinic department f = none := by
  rcases hp : parseFor clinic department f with _ | ⟨v, l, e⟩
  · rfl
  · exfalso
    have hpp := (parseFor_iff clinic department f v l e).mp hp
    obtain ⟨c2, d2, v2, l2, fseg, hs, hc, hd, hv, hl, hfe, h1, h2, h3, h4⟩ :=
      parsePath_shape f _ hpp
    rcases h with h | h
    · have hcc : clinic.data = c2 := by
        have := congrArg String.data h1
        exact this
      have hmem : c2 ∈ splitSlash f.data := by
        rw [hs]
        simp
      exact no_slash_of_mem_splitSlash f.data c2 hmem (hcc ▸ h)
    · have hdd : department.data = d2 := by
        have := congrArg String.data h2
        exact this
      have hmem : d2 ∈ splitSlash f.data := by
        rw [hs]
        simp
      exact no_slash_of_mem_splitSlash f.data d2 hmem (hdd ▸ h)

/-- With a slash in the namespace arguments the scan keeps the state
empty. -/
theorem buildVideoMap_nil_of_slash (clinic department : String) (fs : List String)
    (h : '/' ∈ clinic.data ∨ '/' ∈ department.data) :
    buildVideoMap clinic department fs = [] := by
  unfold buildVideoMap
  induction fs with
  | nil => rfl
  | cons f fs ih =>
    rw [List.foldl_cons, processFile_none clinic department [] f
      (parseFor_none_of_slash clinic department f h)]
    exact ih

/-- The marker object lies inside its per-language folder. -/
theorem langDir_le_placeholder (clinic department name lang : String) :
    (langDir clinic department name lang).data <+: (placeholderOf clinic department name lang).data := by
  rw [placeholderOf, String.data_append]
  exact List.prefix_append _ _

/-- Marker names of different languages of one video differ. -/
theorem placeholderOf_inj (clinic department name l l2 : String)
    (h : placeholderOf clinic department name l = placeholderOf clinic department name l2) :
    l = l2 := by
  have hd := congrArg String.data h
  simp only [placeholderOf, langDir, String.data_append, List.append_assoc] at hd
  have h1 := List.append_cancel_left hd
  have h2 := List.append_cancel_left h1
  have h3 := List.append_cancel_left h2
  have h4 := List.append_cancel_left h3
  have h5 := List.append_cancel_left h4
  have h6 := List.append_cancel_left h5
  have h7 := List.append_cancel_left h6
  exact strExt (List.append_cancel_right h7)

/-- One initializer step never empties a listing. -/
theorem stepLang_mono (clinic department name : String) (s : Storage) (lang p : String)
    (h : listUnder s p ≠ []) :
    listUnder (stepLang clinic department name s lang) p ≠ [] := by
  unfold stepLang
  split_ifs with hx
  · exact listUnder_writeObject_mono s _ "" p h
  · exact h

/-- After its own step a language folder is provisioned. -/
theorem stepLang_self (clinic department name : String) (s : Storage) (lang : String) :
    listUnder (stepLang clinic department name s lang)
      (langDir clinic department name lang) ≠ [] := by
  unfold stepLang
  split_ifs with hx
  · exact listUnder_writeObject_self s _ "" _ (langDir_le_placeholder clinic department name lang)
  · exact hx

/-- The whole loop never empties a listing. -/
theorem loop_mono (clinic department name : String) (ls : List String) :
    ∀ (s : Storage) (p : String), listUnder s p ≠ [] →
      listUnder (ls.foldl (stepLang clinic department name) s) p ≠ [] := by
  induction ls with
  | nil => intro s p h; exact h
  | cons lang ls ih =>
    intro s p h
    rw [List.foldl_cons]
    exact ih _ p (stepLang_mono clinic department name s lang p h)

/-- After the loop every listed language folder is provisioned. -/
theorem loop_provisions (clinic department name : String) (ls : List String) :
    ∀ (s : Storage) (lang : String), lang ∈ ls →
      listUnder (ls.foldl (stepLang clinic department name) s)
        (langDir clinic department name lang) ≠ [] := by
  induction ls with
  | nil => intro s lang h; exact absurd h (List.not_mem_nil lang)
  | cons l0 ls ih =>
    intro s lang h
    rw [List.foldl_cons]
    rcases List.mem_cons.mp h with h1 | h1
    · subst h1
      exact loop_mono clinic department name ls _ _
        (stepLang_self clinic department name s lang)
    · exact ih _ lang h1

/-- When every listed language folder is provisioned the loop is a no-op. -/
theorem loop_noop (clinic department name : String) (ls : List String) :
    ∀ (s : Storage),
      (∀ lang ∈ ls, listUnder s (langDir clinic department name lang) ≠ []) →
      ls.foldl (stepLang clinic department name) s = s := by
  induction ls with
  | nil => intro s _; rfl
  | cons l0 ls ih =>
    intro s h
    rw [List.foldl_cons]
    have hstep : stepLang clinic department name s l0 = s := by
      unfold stepLang
      rw [if_neg (h l0 (List.mem_cons_self _ _))]
    rw [hstep]
    exact ih s (fun lang hl => h lang (List.mem_cons_of_mem _ hl))

/-- A provisioned language keeps its marker object unchanged across the
whole loop. -/
theorem loop_keeps_marker (clinic department name : String) (ls : List String) :
    ∀ (s : Storage) (lang : String),
      listUnder s (langDir clinic department name lang) ≠ [] →
      getObject (ls.foldl (stepLang clinic department name) s)
          (placeholderOf clinic department name lang) =
        getObject s (placeholderOf clinic department name lang) := by
  induction ls with
  | nil => intro s lang _; rfl
  | cons l0 ls ih =>
    intro s lang h
    rw [List.foldl_cons]
    have hkeep : getObject (stepLang clinic department name s l0)
        (placeholderOf clinic department name lang) =
        getObject s (placeholderOf clinic department name lang) := by
      unfold stepLang
      split_ifs with hx
      · have hne : placeholderOf clinic department name lang ≠
            placeholderOf clinic department name l0 := by
          intro he
          have := placeholderOf_inj clinic department name lang l0 he
          subst this
          exact h hx
        exact getObject_writeObject_ne s _ "" _ hne
      · rfl
    rw [ih _ lang (stepLang_mono clinic department name s l0 (langDir clinic department name lang) h), hkeep]

/-- C1: running the bundle builder twice in succession on an unchanged
listing is idempotent: the second run reads the same listing (the
snapshot write lies outside the videos namespace), serializes the same
bundle to byte-identical JSON, writes it to the same location leaving
storage unchanged, and returns the same snapshot path — the serialized
bundle is a deterministic function of (clinic, department, listing). -/
theorem c1_bundle_builder_idempotent (clinic department : String) (st : Storage) :
    runGenerateBundle clinic department ((runGenerateBundle clinic department st).1) =
      runGenerateBundle clinic department st := by
  simp only [runGenerateBundle]
  rw [listUnder_writeObject_of_not_under st _ _ _
    (bundleFile_not_under_videos clinic department clinic department), writeObject_idem]

/-- C4: a name rejected by the grammar — wrong segment shape under the
videos root, unrecognised extension, or clinic/department segments
differing from the builder arguments — contributes nothing: the bundle
computed with the name anywhere in the listing equals the bundle
computed without it. -/
theorem c4_grammar_rejection (clinic department name : String)
    (h : notFiveSegments name ∨ badExtension name ∨ wrongNamespace clinic department name)
    (fs1 fs2 : List String) :
    bundleOf clinic department (fs1 ++ name :: fs2) =
      bundleOf clinic department (fs1 ++ fs2) := by
  have hn := parseFor_none_of_reason clinic department name h
  unfold bundleOf buildVideoMap
  rw [List.foldl_append, List.foldl_append, List.foldl_cons,
    processFile_none clinic department _ name hn]

/-- C4 witness: a text file in the namespace changes nothing. -/
theorem c4_grammar_rejection_witness :
    bundleOf "c1" "d1" (["videos/c1/d1/v1/en/a.mp4"] ++ "videos/c1/d1/readme.txt" :: []) =
      bundleOf "c1" "d1" (["videos/c1/d1/v1/en/a.mp4"] ++ []) :=
  c4_grammar_rejection "c1" "d1" "videos/c1/d1/readme.txt"
    (Or.inr (Or.inl ⟨by decide, by decide⟩)) ["videos/c1/d1/v1/en/a.mp4"] []

/-- C6: the builder performs exactly one storage write — the final
whole-snapshot write — and when the listing operation fails the error
propagates, no write is performed and storage is untouched. -/
theorem c6_single_write_atomic (clinic department : String) (st : Storage) :
    (interp (generateBundleM clinic department) st 0 (fun _ => true) =
      (Except.ok (bundleFileOf clinic department),
        (runGenerateBundle clinic department st).1, 1)) ∧
    (∀ ok : Nat → Bool, ok 0 = false →
      interp (generateBundleM clinic department) st 0 ok =
        (Except.error (), st, 0)) := by
  constructor
  · simp [interp, generateBundleM, runGenerateBundle]
  · intro ok h
    simp [interp, generateBundleM, h]

/-- C6 witness: a failing listing leaves an empty storage empty. -/
theorem c6_single_write_atomic_witness :
    interp (generateBundleM "c1" "d1") [] 0 (fun _ => false) =
      (Except.error (), [], 0) :=
  (c6_single_write_atomic "c1" "d1" []).2 (fun _ => false) rfl

/-- C10: a slash inside the clinic or department argument makes the
defensive equality check reject every listed object, so the bundle has
an empty videos array, and that empty bundle is still serialized and
written to the snapshot location. -/
theorem c10_slash_namespace (clinic department : String)
    (h : '/' ∈ clinic.data ∨ '/' ∈ department.data) :
    (∀ fs : List String, (bundleOf clinic department fs).videos = []) ∧
    (∀ st : Storage, runGenerateBundle clinic department st =
      (writeObject st (bundleFileOf clinic department)
        (bundleToJson { version := "1.0", clinic := clinic,
                        department := department, videos := [] }),
       bundleFileOf clinic department)) := by
  have hb : ∀ fs, bundleOf clinic department fs =
      { version := "1.0", clinic := clinic, department := department, videos := [] } := by
    intro fs
    unfold bundleOf
    rw [buildVideoMap_nil_of_slash clinic department fs h]
    rfl
  constructor
  · intro fs
    rw [hb fs]
  · intro st
    simp only [runGenerateBundle]
    rw [hb]

/-- C10 witness: clinic "a/b" yields an empty videos array even though
the listing holds a plausible object. -/
theorem c10_slash_namespace_witness :
    (bundleOf "a/b" "d1" ["videos/a/b/d1/en/x.mp4"]).videos = [] :=
  (c10_slash_namespace "a/b" "d1" (Or.inl (by decide))).1 ["videos/a/b/d1/en/x.mp4"]

/-- C3: with several grammar-matching objects sharing (videoId, lang,
ext) the corresponding field of that language entry — `videoPath` for
mp4, `subtitlePath` for vtt — holds the last such name in listing order. -/
theorem c3_last_write_wins (clinic department vid lang ext : String) (fs : List String)
    (h2 : 2 ≤ (fs.filter (matchesExt clinic department vid lang ext)).length) :
    ∃ e last, (bundleOf clinic department fs).getLang vid lang = some e ∧
      (fs.filter (matchesExt clinic department vid lang ext)).getLast? = some last ∧
      (ext = "mp4" → e.videoPath = last) ∧
      (ext = "vtt" → e.subtitlePath = last) := by
  have hne : fs.filter (matchesExt clinic department vid lang ext) ≠ [] := by
    intro hx
    rw [hx] at h2
    exact absurd h2 (by decide)
  rcases hl : (fs.filter (matchesExt clinic department vid lang ext)).getLast? with _ | last
  · exact absurd (List.getLast?_eq_none_iff.mp hl) hne
  · have hmem := List.mem_of_getLast?_eq_some hl
    have hmf := List.mem_filter.mp hmem
    have hpl : parseFor clinic department last = some (vid, lang, ext) :=
      of_decide_eq_true hmf.2
    have hkey : matchesKey clinic department vid lang last = true := by
      unfold matchesKey
      rw [hpl]
      simp
    have hkfil : fs.filter (matchesKey clinic department vid lang) ≠ [] := by
      intro hx
      have hm2 : last ∈ fs.filter (matchesKey clinic department vid lang) :=
        List.mem_filter.mpr ⟨hmf.1, hkey⟩
      rw [hx] at hm2
      exact absurd hm2 (List.not_mem_nil last)
    refine ⟨⟨(lastAsset clinic department vid lang "mp4" fs).getD "",
             (lastAsset clinic department vid lang "vtt" fs).getD ""⟩, last, ?_, rfl, ?_, ?_⟩
    · rw [getLang_bundleOf, getEntry_buildVideoMap, if_neg hkfil]
    · intro hext
      subst hext
      show (lastAsset clinic department vid lang "mp4" fs).getD "" = last
      unfold lastAsset
      rw [hl]
      rfl
    · intro hext
      subst hext
      show (lastAsset clinic department vid lang "vtt" fs).getD "" = last
      unfold lastAsset
      rw [hl]
      rfl

/-- C3 witness: of two mp4 uploads for (v1, en) the later one wins. -/
theorem c3_last_write_wins_witness :
    ∃ e last, (bundleOf "c1" "d1"
        ["videos/c1/d1/v1/en/old.mp4", "videos/c1/d1/v1/en/new.mp4"]).getLang "v1" "en" =
          some e ∧
      (["videos/c1/d1/v1/en/old.mp4", "videos/c1/d1/v1/en/new.mp4"].filter
        (matchesExt "c1" "d1" "v1" "en" "mp4")).getLast? = some last ∧
      ("mp4" = "mp4" → e.videoPath = last) ∧
      ("mp4" = "vtt" → e.subtitlePath = last) :=
  c3_last_write_wins "c1" "d1" "v1" "en" "mp4"
    ["videos/c1/d1/v1/en/old.mp4", "videos/c1/d1/v1/en/new.mp4"] (by decide)

/-- C5: every language entry of every video entry of a produced bundle
has at least one non-empty path; an entry is only ever created by a
matching object, whose name then occupies one of the two fields. -/
theorem c5_lang_entry_nonempty (clinic department : String) (fs : List String)
    (v : VideoEntry) (q : String × LangEntry)
    (hv : v ∈ (bundleOf clinic department fs).videos) (hq : q ∈ v.languages) :
    q.2.videoPath ≠ "" ∨ q.2.subtitlePath ≠ "" := by
  have hgood := goodVM_buildVideoMap clinic department fs
  unfold bundleOf at hv
  simp only at hv
  obtain ⟨p, hp, hpv⟩ := List.mem_map.mp hv
  have hq2 : q ∈ p.2 := by
    rw [← hpv] at hq
    exact hq
  have hlm : lookupA (buildVideoMap clinic department fs) p.1 = some p.2 :=
    lookupA_of_mem_nodup _ p.1 p.2 hgood.1
      (by rw [show ((p.1, p.2) : String × LangMap) = p from rfl]; exact hp)
  have hqe : lookupA p.2 q.1 = some q.2 :=
    lookupA_of_mem_nodup _ q.1 q.2 (hgood.2 p hp)
      (by rw [show ((q.1, q.2) : String × LangEntry) = q from rfl]; exact hq2)
  have hge : getEntry (buildVideoMap clinic department fs) p.1 q.1 = some q.2 := by
    unfold getEntry
    rw [hlm]
    exact hqe
  rw [getEntry_buildVideoMap] at hge
  split_ifs at hge with hfil
  have hent := (Option.some.inj hge).symm
  obtain ⟨f, hf⟩ := List.exists_mem_of_ne_nil _ hfil
  have hfm := List.mem_filter.mp hf
  have hfk := hfm.2
  unfold matchesKey at hfk
  rcases hpf : parseFor clinic department f with _ | ⟨fv, fl, fe⟩
  · rw [hpf] at hfk
    exact Bool.noConfusion hfk
  · rw [hpf] at hfk
    simp only [Bool.and_eq_true, decide_eq_true_eq] at hfk
    obtain ⟨hfv, hfl⟩ := hfk
    subst hfv
    subst hfl
    rcases parseFor_ext clinic department f p.1 q.1 fe hpf with hfe | hfe
    · left
      subst hfe
      have hmm : f ∈ fs.filter (matchesExt clinic department p.1 q.1 "mp4") :=
        List.mem_filter.mpr ⟨hfm.1, decide_eq_true hpf⟩
      rcases hlast : lastAsset clinic department p.1 q.1 "mp4" fs with _ | x
      · have := List.getLast?_eq_none_iff.mp hlast
        rw [this] at hmm
        exact absurd hmm (List.not_mem_nil f)
      · have hxp : x ∈ fs.filter (matchesExt clinic department p.1 q.1 "mp4") :=
          List.mem_of_getLast?_eq_some hlast
        have hxparse : parseFor clinic department x = some (p.1, q.1, "mp4") :=
          of_decide_eq_true (List.mem_filter.mp hxp).2
        have hxne : x ≠ "" := parseFor_ne_empty clinic department x _ hxparse
        rw [hent]
        show (lastAsset clinic department p.1 q.1 "mp4" fs).getD "" ≠ ""
        rw [hlast]
        exact hxne
    · right
      subst hfe
      have hmm : f ∈ fs.filter (matchesExt clinic department p.1 q.1 "vtt") :=
        List.mem_filter.mpr ⟨hfm.1, decide_eq_true hpf⟩
      rcases hlast : lastAsset clinic department p.1 q.1 "vtt" fs with _ | x
      · have := List.getLast?_eq_none_iff.mp hlast
        rw [this] at hmm
        exact absurd hmm (List.not_mem_nil f)
      · have hxp : x ∈ fs.filter (matchesExt clinic department p.1 q.1 "vtt") :=
          List.mem_of_getLast?_eq_some hlast
        have hxparse : parseFor clinic department x = some (p.1, q.1, "vtt") :=
          of_decide_eq_true (List.mem_filter.mp hxp).2
        have hxne : x ≠ "" := parseFor_ne_empty clinic department x _ hxparse
        rw [hent]
        show (lastAsset clinic department p.1 q.1 "vtt" fs).getD "" ≠ ""
        rw [hlast]
        exact hxne

/-- C5 witness: the single entry built from one mp4 upload has a
non-empty path. -/
theorem c5_lang_entry_nonempty_witness :
    (("en", ({ videoPath := "videos/c1/d1/v1/en/a.mp4", subtitlePath := "" } : LangEntry)) :
        String × LangEntry).2.videoPath ≠ "" ∨
    (("en", ({ videoPath := "videos/c1/d1/v1/en/a.mp4", subtitlePath := "" } : LangEntry)) :
        String × LangEntry).2.subtitlePath ≠ "" :=
  c5_lang_entry_nonempty "c1" "d1" ["videos/c1/d1/v1/en/a.mp4"]
    { id := "v1", title := "v1",
      languages := [("en", { videoPath := "videos/c1/d1/v1/en/a.mp4", subtitlePath := "" })] }
    ("en", { videoPath := "videos/c1/d1/v1/en/a.mp4", subtitlePath := "" })
    (by decide) (by decide)

/-- C2 counterexample: `old.mp4` matches the grammar for (c1, d1), yet
its name occurs zero times — not exactly once — among the path values of
the bundle, because a later mp4 for the same (videoId, lang) overwrote
it. -/
theorem c2_completeness_counterexample :
    parseFor "c1" "d1" "videos/c1/d1/v1/en/old.mp4" = some ("v1", "en", "mp4") ∧
    "videos/c1/d1/v1/en/old.mp4" ∈
      ["videos/c1/d1/v1/en/old.mp4", "videos/c1/d1/v1/en/new.mp4"] ∧
    pathOccurrences (bundleOf "c1" "d1"
        ["videos/c1/d1/v1/en/old.mp4", "videos/c1/d1/v1/en/new.mp4"])
      "videos/c1/d1/v1/en/old.mp4" = 0 := by
  refine ⟨by decide, by decide, by decide⟩

/-- C2 amended: a grammar-matching object name that is the LAST listed
object of its (videoId, lang, ext) group appears as exactly one
`videoPath` or `subtitlePath` value of the bundle; superseded duplicates
appear zero times. -/
theorem c2_completeness_last_listed (clinic department : String) (fs : List String)
    (n vid lang ext : String)
    (hlast : (fs.filter (matchesExt clinic department vid lang ext)).getLast? = some n) :
    pathOccurrences (bundleOf clinic department fs) n = 1 := by
  have hmemf := List.mem_of_getLast?_eq_some hlast
  have hmf := List.mem_filter.mp hmemf
  have hn : parseFor clinic department n = some (vid, lang, ext) := of_decide_eq_true hmf.2
  rw [pathOccurrences_eq clinic department fs n vid lang ext hn]
  have hkey : matchesKey clinic department vid lang n = true := by
    unfold matchesKey
    rw [hn]
    simp
  have hkfil : fs.filter (matchesKey clinic department vid lang) ≠ [] := by
    intro hx
    have hm2 : n ∈ fs.filter (matchesKey clinic department vid lang) :=
      List.mem_filter.mpr ⟨hmf.1, hkey⟩
    rw [hx] at hm2
    exact absurd hm2 (List.not_mem_nil n)
  rw [getEntry_buildVideoMap, if_neg hkfil]
  exact cellCnt_one_at_key clinic department fs n vid lang ext hn hlast _
    (by rw [getEntry_buildVideoMap, if_neg hkfil])

/-- C2 witness: the surviving upload occurs exactly once. -/
theorem c2_completeness_last_listed_witness :
    pathOccurrences (bundleOf "c1" "d1"
        ["videos/c1/d1/v1/en/old.mp4", "videos/c1/d1/v1/en/new.mp4"])
      "videos/c1/d1/v1/en/new.mp4" = 1 :=
  c2_completeness_last_listed "c1" "d1"
    ["videos/c1/d1/v1/en/old.mp4", "videos/c1/d1/v1/en/new.mp4"]
    "videos/c1/d1/v1/en/new.mp4" "v1" "en" "mp4" (by decide)

/-- C7: invoking the initializer a second time with the same arguments
and no external storage change creates nothing — the second call returns
storage unchanged — and, more generally, a language whose per-language
folder already holds at least one object keeps its marker object
untouched by the whole call. -/
theorem c7_folder_idempotent (clinic department videoName : String)
    (ls : List String) (st : Storage) :
    createLanguageFolders clinic department videoName ls
        (createLanguageFolders clinic department videoName ls st) =
      createLanguageFolders clinic department videoName ls st ∧
    ∀ lang ∈ ls,
      listUnder st (langDir clinic department (strTrim videoName) lang) ≠ [] →
      getObject (createLanguageFolders clinic department videoName ls st)
          (placeholderOf clinic department (strTrim videoName) lang) =
        getObject st (placeholderOf clinic department (strTrim videoName) lang) := by
  unfold createLanguageFolders
  by_cases h : strTrim videoName = ""
  · simp [if_pos h]
  · simp only [if_neg h]
    constructor
    · exact loop_noop clinic department _ ls _
        (fun lang hl => loop_provisions clinic department _ ls st lang hl)
    · intro lang hl hne
      exact loop_keeps_marker clinic department _ ls st lang hne

/-- C7 witness: with an existing object under en, re-running changes
nothing and the en marker is untouched. -/
theorem c7_folder_idempotent_witness :
    createLanguageFolders "c1" "d1" "v1" ["en"]
        (createLanguageFolders "c1" "d1" "v1" ["en"]
          [("videos/c1/d1/v1/en/a.mp4", "x")]) =
      createLanguageFolders "c1" "d1" "v1" ["en"] [("videos/c1/d1/v1/en/a.mp4", "x")] ∧
    getObject (createLanguageFolders "c1" "d1" "v1" ["en"]
        [("videos/c1/d1/v1/en/a.mp4", "x")])
        (placeholderOf "c1" "d1" (strTrim "v1") "en") =
      getObject [("videos/c1/d1/v1/en/a.mp4", "x")]
        (placeholderOf "c1" "d1" (strTrim "v1") "en") :=
  ⟨(c7_folder_idempotent "c1" "d1" "v1" ["en"] [("videos/c1/d1/v1/en/a.mp4", "x")]).1,
   (c7_folder_idempotent "c1" "d1" "v1" ["en"] [("videos/c1/d1/v1/en/a.mp4", "x")]).2
     "en" (by decide) (by decide)⟩

/-- C8: a video name that is empty after trimming makes the initializer
return before any storage operation: the pure run changes nothing, and
the operation-level run succeeds with zero writes under every oracle —
no error is thrown even if storage would fail. -/
theorem c8_empty_video_name_noop (clinic department videoName : String)
    (languages : List String) (h : strTrim videoName = "") :
    (∀ st : Storage,
      createLanguageFolders clinic department videoName languages st = st) ∧
    (∀ (st : Storage) (i : Nat) (ok : Nat → Bool),
      interp (createLanguageFoldersM clinic department videoName languages) st i ok =
        (Except.ok (), st, 0)) := by
  constructor
  · intro st
    unfold createLanguageFolders
    rw [if_pos h]
  · intro st i ok
    unfold createLanguageFoldersM
    rw [if_pos h]
    rfl

/-- C8 witness: a whitespace-only name is a no-op without error. -/
theorem c8_empty_video_name_noop_witness :
    strTrim "  " = "" ∧
    createLanguageFolders "c1" "d1" "  " ["en"] [("videos/x", "y")] = [("videos/x", "y")] ∧
    interp (createLanguageFoldersM "c1" "d1" "  " ["en"]) [("videos/x", "y")] 0
        (fun _ => false) = (Except.ok (), [("videos/x", "y")], 0) :=
  ⟨rfl,
   (c8_empty_video_name_noop "c1" "d1" "  " ["en"] rfl).1 [("videos/x", "y")],
   (c8_empty_video_name_noop "c1" "d1" "  " ["en"] rfl).2 [("videos/x", "y")] 0 (fun _ => false)⟩

/-- C9 counterexample: the name `videos/c1/d1/v1` has a third path
segment under videos/c1/d1/ (namely `v1`), yet the handler regex, which
demands a slash after the third segment, does not match, so the
initializer is not invoked. -/
theorem c9_trigger_counterexample :
    splitSlash ("videos/c1/d1/v1".data) =
      ["videos".data, "c1".data, "d1".data, "v1".data] ∧
    createLanguageFoldersTrigger "videos/c1/d1/v1" = none := by
  refine ⟨by decide, by decide⟩

/-- C9 amended: for every upload-notification object name whose third
path segment under videos/<clinic>/<department>/ is followed by a
further slash, the handler invokes the initializer with that third
segment as the video name and the fixed 16-entry default language list. -/
theorem c9_trigger_third_segment (name : String) (c d v : List Char)
    (rest : List (List Char))
    (hs : splitSlash name.data = "videos".data :: c :: d :: v :: rest)
    (hrest : rest ≠ []) (hc : c ≠ []) (hd : d ≠ []) (hv : v ≠ []) :
    createLanguageFoldersTrigger name =
      some (String.mk c, String.mk d, String.mk v, SUPPORTED_LANGUAGES) ∧
    SUPPORTED_LANGUAGES.length = 16 := by
  constructor
  · rcases rest with _ | ⟨x, xs⟩
    · exact absurd rfl hrest
    · unfold createLanguageFoldersTrigger
      rw [hs]
      simp [hc, hd, hv]
  · rfl

/-- C9 witness: a real asset upload invokes the initializer for v1 with
the 16 default languages. -/
theorem c9_trigger_third_segment_witness :
    createLanguageFoldersTrigger "videos/c1/d1/v1/en/a.mp4" =
      some ("c1", "d1", "v1", SUPPORTED_LANGUAGES) ∧
    SUPPORTED_LANGUAGES.length = 16 :=
  c9_trigger_third_segment "videos/c1/d1/v1/en/a.mp4"
    ("c1".data) ("d1".data) ("v1".data) ["en".data, "a.mp4".data]
    (by decide) (by decide) (by decide) (by decide) (by decide)
